import Mathlib

/-!
# Verification of the DEC core of `Clustering/ConvolutionalAutoencoder.py`

This file gives a shallow embedding of the Deep-Embedded-Clustering core of the
repository's single source file and proves the stated properties of:

* `acc_cluster` (source lines 15-35): clustering accuracy via an optimal
  assignment over the contingency matrix.  The external solver
  `scipy.optimize.linear_sum_assignment` is modelled by its contract: the
  assignment maximising the total matched count over all permutations.
* `ClusteringLayer.call` (source lines 103-116): the student-t soft-assignment
  forward pass, over `ℝ` (the source computes with floats; real arithmetic is
  the idealised semantics, and the claims about NaN/division are captured by
  explicit positivity of every divisor).
* `target_distribution` (source lines 128-130): the sharpening rule.  Two
  embeddings are given: `target_distribution` is the direct translation using
  the field's total division, and `target_distributionF` additionally tracks
  division by zero the way the source's IEEE float arithmetic does: dividing
  by zero does not produce a finite value (for the non-negative inputs at hand
  it is `0/0 = NaN`), and a non-finite value is absorbed by every later sum
  and division.  `none` models "not a finite number".
* the `__main__` training loop (source lines 188-215): termination state and
  the cyclic minibatch cursor.
-/

namespace VitFemur

/-! ### Evaluation accuracy function: `acc_cluster` (source lines 15-35) -/

/-- Numpy `l.max()` for a list of naturals, with value `0` on the empty
list (the source only evaluates it on non-empty label arrays). -/
def npMax (l : List ℕ) : ℕ := l.foldr max 0

/-- The contingency matrix `w` built by `acc_cluster`:
`w[y_pred[i], y_true[i]] += 1` for every sample index `i`.  Entry `(a, b)`
counts the samples predicted in cluster `a` whose true label is `b`. -/
def contW (y_true y_pred : List ℕ) (a b : ℕ) : ℕ :=
  (y_pred.zip y_true).countP fun x => decide (x.1 = a ∧ x.2 = b)

/-- The matrix dimension `D = max(y_pred.max(), y_true.max()) + 1` used by
`acc_cluster`. -/
def contDim (y_true y_pred : List ℕ) : ℕ := max (npMax y_pred) (npMax y_true) + 1

/-- Contract of `linear_sum_assignment(w.max() - w)` followed by
`s = sum(w[i, j] for (i, j) in ind)`: the solver returns an exact optimal
assignment, so `s` is the maximum of `∑ i, w i (σ i)` over all permutations
`σ` of `{0, …, D-1}`. -/
def bestS (w : ℕ → ℕ → ℕ) (D : ℕ) : ℕ :=
  Finset.univ.sup fun σ : Equiv.Perm (Fin D) => ∑ i : Fin D, w i.1 (σ i).1

/-- The accuracy `s / y_pred.size` returned by `acc_cluster` (source lines 15-35). -/
def acc_cluster (y_true y_pred : List ℕ) : ℚ :=
  (bestS (contW y_true y_pred) (contDim y_true y_pred) : ℚ) / (y_pred.length : ℚ)

/-! ### Target distribution sharpener: `target_distribution` (lines 128-130) -/

/-- Column sums `q.sum(0)`: the soft cluster frequency `f_j = ∑ i, q i j`. -/
def colFreq {n k : ℕ} {F : Type} [LinearOrderedField F]
    (q : Fin n → Fin k → F) (j : Fin k) : F := ∑ i, q i j

/-- The matrix `weight = q ** 2 / q.sum(0)` (source line 129). -/
def tdWeight {n k : ℕ} {F : Type} [LinearOrderedField F]
    (q : Fin n → Fin k → F) (i : Fin n) (j : Fin k) : F :=
  q i j ^ 2 / colFreq q j

/-- Row normalisation `(weight.T / weight.sum(1)).T` (source line 130): the direct translation
of `target_distribution`, with the field's total division. -/
def target_distribution {n k : ℕ} {F : Type} [LinearOrderedField F]
    (q : Fin n → Fin k → F) (i : Fin n) (j : Fin k) : F :=
  tdWeight q i j / ∑ j', tdWeight q i j'

/-- Every division performed by `target_distribution` has a non-zero divisor:
each column frequency `q.sum(0)[j]` and each row sum `weight.sum(1)[i]`.
Exactly when this fails, the source's float computation divides by zero and
the result contains non-finite entries. -/
def tdWellDefined {n k : ℕ} {F : Type} [LinearOrderedField F]
    (q : Fin n → Fin k → F) : Prop :=
  (∀ j, colFreq q j ≠ 0) ∧ ∀ i, (∑ j', tdWeight q i j') ≠ 0

/-- Division tracking the source's float semantics on the inputs at hand:
a division by zero does not yield a finite number (`none`), and any
non-finite operand is absorbed.  (For the non-negative matrices `q` the
sharpener is applied to, a zero divisor forces a zero dividend, so the float
result there is exactly `0/0 = NaN`.) -/
def fdiv : Option ℚ → Option ℚ → Option ℚ
  | some a, some b => if b = 0 then none else some (a / b)
  | _, _ => none

/-- Sum of a row of possibly non-finite values: any non-finite summand makes
the sum non-finite, as for IEEE NaN. -/
def fsum {k : ℕ} (g : Fin k → Option ℚ) : Option ℚ :=
  if ∀ j, (g j).isSome then some (∑ j, (g j).getD 0) else none

/-- Version of `target_distribution` with float-style tracking of division by zero:
`weight = q ** 2 / q.sum(0)` entrywise, then each entry is divided by its row
sum `weight.sum(1)`.  An entry is `none` exactly when the source's float
computation makes it non-finite (NaN here). -/
def target_distributionF {n k : ℕ} (q : Fin n → Fin k → ℚ) (i : Fin n)
    (j : Fin k) : Option ℚ :=
  fdiv (fdiv (some (q i j ^ 2)) (some (colFreq q j)))
    (fsum fun j' => fdiv (some (q i j' ^ 2)) (some (colFreq q j')))

/-- The 1 × 2 row-stochastic matrix `[[1, 0]]`: its second cluster column has
zero total soft-assignment mass. -/
def qUnitRow : Fin 1 → Fin 2 → ℚ := fun _ j => if j = 0 then 1 else 0

/-- The 2 × 2 row-stochastic matrix `[[1, 0], [1, 0]]`: rows are non-negative
and sum to 1, but the second cluster column has zero total mass. -/
def qZeroCol : Fin 2 → Fin 2 → ℚ := fun _ j => if j = 0 then 1 else 0

/-- The one-hot 2 × 2 identity soft-assignment matrix. -/
def qOneHot : Fin 2 → Fin 2 → ℚ := fun i j => if i.1 = j.1 then 1 else 0

/-- The 1 × 2 matrix `[[1/2, 1/2]]`: a valid soft assignment with every
column mass positive. -/
def qHalf : Fin 1 → Fin 2 → ℚ := fun _ _ => 1 / 2

/-! ### Soft-assignment layer: `ClusteringLayer.call` (source lines 103-116) -/

/-- Squared euclidean distance
`K.sum(K.square(K.expand_dims(inputs, 1) - clusters), axis=2)` between one
embedding and one cluster center. -/
noncomputable def sqDist {D : ℕ} (x c : Fin D → ℝ) : ℝ := ∑ d, (x d - c d) ^ 2

/-- The unnormalised student-t affinity computed by `ClusteringLayer.call`:
`q = 1.0 / (1.0 + dist² / alpha)` followed by `q **= (alpha + 1.0) / 2.0`
(source lines 113-114). -/
noncomputable def studentQ {n K D : ℕ} (alpha : ℝ) (inputs : Fin n → Fin D → ℝ)
    (clusters : Fin K → Fin D → ℝ) (i : Fin n) (j : Fin K) : ℝ :=
  (1 / (1 + sqDist (inputs i) (clusters j) / alpha)) ^ ((alpha + 1) / 2)

/-- Forward pass `ClusteringLayer.call`: the row normalisation
`q = K.transpose(K.transpose(q) / K.sum(q, axis=1))` of the student-t
affinities (source line 115). -/
noncomputable def ClusteringLayer.call {n K D : ℕ} (alpha : ℝ)
    (inputs : Fin n → Fin D → ℝ) (clusters : Fin K → Fin D → ℝ)
    (i : Fin n) (j : Fin K) : ℝ :=
  studentQ alpha inputs clusters i j / ∑ j', studentQ alpha inputs clusters i j'

/-- Modelled from the spec's wording (for comparison with the source):
"unnormalized affinity = (1 + distance²/α)^(-(α+1)/2); normalize each row to
sum to 1 across clusters". -/
noncomputable def studentTSoftAssign {n K D : ℕ} (alpha : ℝ)
    (inputs : Fin n → Fin D → ℝ) (clusters : Fin K → Fin D → ℝ)
    (i : Fin n) (j : Fin K) : ℝ :=
  (1 + sqDist (inputs i) (clusters j) / alpha) ^ (-((alpha + 1) / 2)) /
    ∑ j', (1 + sqDist (inputs i) (clusters j') / alpha) ^ (-((alpha + 1) / 2))

/-- A concrete 1 × 1 batch of embeddings: the single embedding `(0)`. -/
noncomputable def embed0 : Fin 1 → Fin 1 → ℝ := fun _ _ => 0

/-- A concrete set of cluster centers: the single center `(0)`, exactly
coinciding with the embedding `embed0 0`. -/
noncomputable def center0 : Fin 1 → Fin 1 → ℝ := fun _ _ => 0

/-! ### Training loop: `__main__` (source lines 188-215) -/

/-- The two terminal states of the DEC training loop. -/
inductive TermState
  | CONVERGED
  | MAX_ITER_REACHED

/-- Drift count `np.sum(y_pred != y_pred_last)`: the number of positions where the two
hard label assignments differ. -/
def countDiff (a b : List ℕ) : ℕ :=
  (a.zip b).countP fun x => decide (x.1 ≠ x.2)

/-- One run of the `for ite in range(maxiter)` loop of the source, restricted
to the state that decides its terminal outcome.  `preds k` is the hard label
assignment `q.argmax(1)` that the model would produce at iteration `k` (the
model itself is an opaque, trained collaborator).  On a tick
(`ite % update_interval == 0`) the loop computes
`delta_label = np.sum(y_pred != y_pred_last) / y_pred.shape[0]`, replaces
`y_pred_last` and breaks iff `ite > 0 and delta_label < tol`; exhausting
`range(maxiter)` is the MAX_ITER_REACHED outcome. -/
def runDEC (u : ℕ) (tol : ℚ) (preds : ℕ → List ℕ) :
    ℕ → ℕ → List ℕ → TermState
  | 0, _, _ => TermState.MAX_ITER_REACHED
  | fuel + 1, k, last =>
    if k % u = 0 then
      let yp := preds k
      let delta : ℚ := (countDiff yp last : ℚ) / (yp.length : ℚ)
      if 0 < k ∧ delta < tol then TermState.CONVERGED
      else runDEC u tol preds fuel (k + 1) yp
    else runDEC u tol preds fuel (k + 1) last

/-- The whole training loop, started at iteration 0 with the k-means seed
assignment as `y_pred_last`. -/
def dec_train (maxiter u : ℕ) (tol : ℚ) (preds : ℕ → List ℕ)
    (y_pred_init : List ℕ) : TermState :=
  runDEC u tol preds maxiter 0 y_pred_init

/-! ### Minibatch cursor (source lines 213-215) -/

/-- The index slice
`index_array[index * batch_size : min((index + 1) * batch_size, N)]` drawn at
cursor position `index`, where `index_array = np.arange(N)`. -/
def batchIdx (N B index : ℕ) : List ℕ :=
  ((List.range N).drop (index * B)).take (min ((index + 1) * B) N - index * B)

/-- The cursor update
`index = index + 1 if (index + 1) * batch_size <= N else 0`. -/
def nextBatchIndex (N B index : ℕ) : ℕ :=
  if (index + 1) * B ≤ N then index + 1 else 0

/-- The cursor position after `t` minibatch draws, starting from `index = 0`. -/
def cursorAt (N B : ℕ) : ℕ → ℕ
  | 0 => 0
  | t + 1 => nextBatchIndex N B (cursorAt N B t)

/-! ## Theorems -/

/-- Claim C5: with `maxiter = 1` the training loop always terminates in the
MAX_ITER_REACHED state and never in CONVERGED, whatever the update interval,
tolerance, model predictions and seed assignment: the convergence transition
additionally requires the current iteration to be positive, which fails at
iteration 0, and iteration 0 is the only iteration run. -/
theorem dec_train_maxiter_one_max_iter_reached (u : ℕ) (tol : ℚ)
    (preds : ℕ → List ℕ) (y_pred_init : List ℕ) :
    dec_train 1 u tol preds y_pred_init = TermState.MAX_ITER_REACHED := by
  simp [dec_train, runDEC]

/-- Claim C6: with dataset size 300 and batch size 128 the cursor visits
positions 0, 1, 2 and then wraps to 0, and the successive index slices are
exactly `[0:128]`, `[128:256]`, `[256:300]`, and `[0:128]` again. -/
theorem cursor_300_128_cycle :
    cursorAt 300 128 0 = 0 ∧ cursorAt 300 128 1 = 1 ∧
      cursorAt 300 128 2 = 2 ∧ cursorAt 300 128 3 = 0 ∧
      batchIdx 300 128 (cursorAt 300 128 0) = List.range' 0 128 ∧
      batchIdx 300 128 (cursorAt 300 128 1) = List.range' 128 128 ∧
      batchIdx 300 128 (cursorAt 300 128 2) = List.range' 256 44 ∧
      batchIdx 300 128 (cursorAt 300 128 3) = List.range' 0 128 := by
  refine ⟨by decide, by decide, by decide, by decide, ?_, ?_, ?_, ?_⟩ <;> decide

/-- Helper: a python slice `np.arange(n)[s : s + len]` is `List.range' s len`
whenever it stays in bounds. -/
theorem range_drop_take (s len n : ℕ) (h : s + len ≤ n) :
    ((List.range n).drop s).take len = List.range' s len := by
  have hs : s ≤ n := le_trans (Nat.le_add_right s len) h
  have h1 : List.range n = List.range' 0 s ++ List.range' (0 + s) (n - s) := by
    rw [List.range'_append_1, Nat.sub_add_cancel hs, List.range_eq_range']
  have h2 : List.range' s (n - s) = List.range' s len ++ List.range' (s + len) (n - s - len) := by
    rw [List.range'_append_1]
    congr 1
    omega
  rw [h1, List.drop_left' (List.length_range' ..), Nat.zero_add, h2,
    List.take_left' (List.length_range' ..)]

/-- Claim C9: when the dataset size is an exact positive multiple `m * B` of the
batch size, the cursor draws the final full slice `[N-B : N]` at position
`m - 1`, then advances to `m` instead of wrapping, so the next draw is the
empty slice `[N : N]`, and only then does the cursor reset to 0. -/
theorem batch_cursor_exact_multiple (B m : ℕ) (hB : 0 < B) (hm : 0 < m) :
    batchIdx (m * B) B (m - 1) = List.range' ((m - 1) * B) B ∧
      nextBatchIndex (m * B) B (m - 1) = m ∧
      batchIdx (m * B) B m = [] ∧
      nextBatchIndex (m * B) B m = 0 := by
  have hsucc : (m - 1) + 1 = m := Nat.succ_pred_eq_of_pos hm
  have hmul : (m - 1) * B + B = m * B := by
    conv_rhs => rw [← hsucc]
    ring
  refine ⟨?_, ?_, ?_, ?_⟩
  · unfold batchIdx
    have h1 : min ((m - 1 + 1) * B) (m * B) - (m - 1) * B = B := by
      rw [hsucc, min_self]
      omega
    rw [h1]
    exact range_drop_take _ _ _ (le_of_eq hmul)
  · unfold nextBatchIndex
    rw [hsucc, if_pos (le_refl (m * B))]
  · unfold batchIdx
    have h1 : min ((m + 1) * B) (m * B) - m * B = 0 := by
      have h2 : m * B ≤ (m + 1) * B := Nat.mul_le_mul_right B (Nat.le_succ m)
      omega
    rw [h1]
    simp
  · unfold nextBatchIndex
    rw [if_neg]
    have h2 : (m + 1) * B = m * B + B := by ring
    omega

/-- Witness for `batch_cursor_exact_multiple` at `B = 128`, `m = 2`
(`N = 256`). -/
theorem batch_cursor_exact_multiple_witness :
    0 < 128 ∧ 0 < 2 ∧
      (batchIdx (2 * 128) 128 (2 - 1) = List.range' ((2 - 1) * 128) 128 ∧
        nextBatchIndex (2 * 128) 128 (2 - 1) = 2 ∧
        batchIdx (2 * 128) 128 2 = [] ∧
        nextBatchIndex (2 * 128) 128 2 = 0) :=
  ⟨by decide, by decide, batch_cursor_exact_multiple 128 2 (by decide) (by decide)⟩

/-- Helper: a non-finite divisor makes a division non-finite. -/
theorem fdiv_none_right (x : Option ℚ) : fdiv x none = none := by
  cases x <;> rfl

/-- Helper: as soon as one cluster column of `q` has zero total mass, the
float computation of `target_distribution` divides by zero in that column of
`weight`, the non-finite entry is absorbed by every row sum
`weight.sum(1)`, and so no entry of the output is a finite number. -/
theorem target_distributionF_eq_none_of_colFreq_zero {n k : ℕ}
    (q : Fin n → Fin k → ℚ) (j₀ : Fin k) (h : colFreq q j₀ = 0) :
    ∀ i j, target_distributionF q i j = none := by
  intro i j
  unfold target_distributionF
  have hnot : ¬ ∀ j', (fdiv (some (q i j' ^ 2)) (some (colFreq q j'))).isSome = true := by
    intro hall
    have h1 := hall j₀
    rw [h] at h1
    simp [fdiv] at h1
  have hnone :
      (fsum fun j' => fdiv (some (q i j' ^ 2)) (some (colFreq q j'))) = none := by
    unfold fsum
    rw [if_neg hnot]
  rw [hnone, fdiv_none_right]

/-- Claim C1: the code does NOT implement the guarded behaviour the spec
requires.  On the valid 1 × 2 soft-assignment matrix `[[1, 0]]` (rows
non-negative and summing to 1) the second cluster column has zero total mass
`f_1 = 0`, and `weight = q ** 2 / q.sum(0)` divides `0` by `0` there: in the
source's float arithmetic this is NaN, not the deterministic zero weight the
spec demands, and the NaN is absorbed by the row normalisation so that every
output entry is non-finite. -/
theorem target_distribution_zero_mass_not_finite :
    (∀ i j, 0 ≤ qUnitRow i j) ∧ (∀ i, ∑ j, qUnitRow i j = 1) ∧
      colFreq qUnitRow 1 = 0 ∧
      ∀ i j, target_distributionF qUnitRow i j = none := by
  have hcf : colFreq qUnitRow 1 = 0 := by
    simp [colFreq, qUnitRow, Fin.sum_univ_one]
  refine ⟨?_, ?_, hcf, target_distributionF_eq_none_of_colFreq_zero _ 1 hcf⟩
  · intro i j
    unfold qUnitRow
    split <;> norm_num
  · intro i
    simp [qUnitRow, Fin.sum_univ_two]

/-- Counterexample to claim C3 as stated: the 2 × 2 matrix `[[1, 0], [1, 0]]`
has non-negative rows summing to 1 with `N = 2 ≥ 1` and `K = 2 ≥ 2`, yet the
sharpener's float computation divides by the zero column mass `f_1 = 0`, so
no entry of the output is a finite number and no output row sums to 1. -/
theorem target_distribution_rows_counterexample :
    (∀ i j, 0 ≤ qZeroCol i j) ∧ (∀ i, ∑ j, qZeroCol i j = 1) ∧
      (1 ≤ 2 ∧ 2 ≤ 2) ∧
      ∀ i j, target_distributionF qZeroCol i j = none := by
  have hcf : colFreq qZeroCol 1 = 0 := by
    simp [colFreq, qZeroCol, Fin.sum_univ_two]
  refine ⟨?_, ?_, ⟨by norm_num, le_refl 2⟩,
    target_distributionF_eq_none_of_colFreq_zero _ 1 hcf⟩
  · intro i j
    unfold qZeroCol
    split <;> norm_num
  · intro i
    simp [qZeroCol, Fin.sum_univ_two]

/-- Helper: when every divisor of the sharpener is non-zero, its float
computation is finite everywhere and agrees with the total-division
translation `target_distribution`. -/
theorem target_distributionF_eq_of_wellDefined {n k : ℕ} (q : Fin n → Fin k → ℚ)
    (h : tdWellDefined q) (i : Fin n) (j : Fin k) :
    target_distributionF q i j = some (target_distribution q i j) := by
  obtain ⟨hcol, hrowS⟩ := h
  have hin : ∀ j', fdiv (some (q i j' ^ 2)) (some (colFreq q j'))
      = some (tdWeight q i j') := by
    intro j'
    simp only [fdiv]
    rw [if_neg (hcol j')]
    rfl
  have hsum : (fsum fun j' => fdiv (some (q i j' ^ 2)) (some (colFreq q j')))
      = some (∑ j', tdWeight q i j') := by
    unfold fsum
    rw [if_pos]
    · congr 1
      refine Finset.sum_congr rfl fun j' _ => ?_
      simp only [hin j']
      rfl
    · intro j'
      simp only [hin j']
      rfl
  unfold target_distributionF
  rw [hin j, hsum]
  simp only [fdiv]
  rw [if_neg (hrowS i)]
  rfl

/-- Claim C3 (amended): for every soft-assignment matrix `q` with `N ≥ 1` rows
and `K ≥ 2` columns whose rows are non-negative and sum to 1, *and in which
every cluster column has non-zero total mass*, the sharpener's float
computation is finite everywhere and the output `p` again has every row
non-negative and summing (exactly) to 1. -/
theorem target_distribution_rows_stochastic {n k : ℕ} (q : Fin n → Fin k → ℚ)
    (_hk : 2 ≤ k) (hnn : ∀ i j, 0 ≤ q i j) (hrow : ∀ i, ∑ j, q i j = 1)
    (hcol : ∀ j, colFreq q j ≠ 0) :
    (∀ i j, target_distributionF q i j = some (target_distribution q i j)) ∧
      (∀ i j, 0 ≤ target_distribution q i j) ∧
      ∀ i, ∑ j, target_distribution q i j = 1 := by
  have hcolpos : ∀ j, 0 < colFreq q j := fun j =>
    lt_of_le_of_ne (Finset.sum_nonneg fun i _ => hnn i j) (Ne.symm (hcol j))
  have hwnn : ∀ i j, 0 ≤ tdWeight q i j := fun i j =>
    div_nonneg (sq_nonneg _) (hcolpos j).le
  have hS : ∀ i, 0 < ∑ j', tdWeight q i j' := by
    intro i
    have hex : ∃ j₀, q i j₀ ≠ 0 := by
      by_contra hno
      push_neg at hno
      have hz : (∑ j, q i j) = 0 := Finset.sum_eq_zero fun j _ => hno j
      rw [hrow i] at hz
      exact one_ne_zero hz
    obtain ⟨j₀, hj₀⟩ := hex
    have hq0 : 0 < q i j₀ := lt_of_le_of_ne (hnn i j₀) (Ne.symm hj₀)
    have hw0 : 0 < tdWeight q i j₀ := div_pos (pow_pos hq0 2) (hcolpos j₀)
    exact lt_of_lt_of_le hw0
      (Finset.single_le_sum (fun j _ => hwnn i j) (Finset.mem_univ j₀))
  have hwd : tdWellDefined q := ⟨hcol, fun i => (hS i).ne'⟩
  refine ⟨fun i j => target_distributionF_eq_of_wellDefined q hwd i j,
    fun i j => div_nonneg (hwnn i j) (hS i).le, fun i => ?_⟩
  unfold target_distribution
  rw [← Finset.sum_div, div_self (hS i).ne']

/-- Witness for `target_distribution_rows_stochastic` at `q = [[1/2, 1/2]]`. -/
theorem target_distribution_rows_stochastic_witness :
    ((2 : ℕ) ≤ 2 ∧ (∀ i j, 0 ≤ qHalf i j) ∧ (∀ i, ∑ j, qHalf i j = 1) ∧
        ∀ j, colFreq qHalf j ≠ 0) ∧
      ((∀ i j, target_distributionF qHalf i j = some (target_distribution qHalf i j)) ∧
        (∀ i j, 0 ≤ target_distribution qHalf i j) ∧
        ∀ i, ∑ j, target_distribution qHalf i j = 1) :=
  ⟨⟨le_refl 2, fun _ _ => by norm_num [qHalf],
      fun _ => by norm_num [qHalf, Fin.sum_univ_two],
      fun j => by norm_num [colFreq, qHalf, Fin.sum_univ_one]⟩,
    target_distribution_rows_stochastic qHalf (le_refl 2)
      (fun _ _ => by norm_num [qHalf])
      (fun _ => by norm_num [qHalf, Fin.sum_univ_two])
      (fun j => by norm_num [colFreq, qHalf, Fin.sum_univ_one])⟩

/-- Claim C7: every one-hot soft-assignment matrix (each row has a single entry
1 and all others 0) in which every cluster column is used by at least one row
is a fixed point of the sharpener: `target_distribution(q)` is finite
everywhere and returns `q` itself. -/
theorem target_distribution_one_hot_fixed {n k : ℕ} (q : Fin n → Fin k → ℚ)
    (h01 : ∀ i j, q i j = 0 ∨ q i j = 1) (hrow : ∀ i, ∑ j, q i j = 1)
    (hcol : ∀ j, ∃ i, q i j = 1) :
    ∀ i j, target_distributionF q i j = some (q i j) := by
  have hnn : ∀ i j, 0 ≤ q i j := by
    intro i j
    rcases h01 i j with h | h <;> simp [h]
  have hcolpos : ∀ j, 0 < colFreq q j := by
    intro j
    obtain ⟨i₀, hi₀⟩ := hcol j
    have h1 : (1 : ℚ) ≤ colFreq q j := by
      rw [← hi₀]
      exact Finset.single_le_sum (fun i _ => hnn i j) (Finset.mem_univ i₀)
    linarith
  have hhot : ∀ i, ∃ j₀, q i j₀ = 1 ∧ ∀ j, j ≠ j₀ → q i j = 0 := by
    intro i
    have hex : ∃ j₀, q i j₀ ≠ 0 := by
      by_contra hno
      push_neg at hno
      have hz : (∑ j, q i j) = 0 := Finset.sum_eq_zero fun j _ => hno j
      rw [hrow i] at hz
      exact one_ne_zero hz
    obtain ⟨j₀, hj₀⟩ := hex
    have h1 : q i j₀ = 1 := (h01 i j₀).resolve_left hj₀
    refine ⟨j₀, h1, fun j hne => ?_⟩
    by_contra hq
    have h2 : q i j = 1 := (h01 i j).resolve_left hq
    have hpair : q i j₀ + q i j ≤ ∑ j', q i j' := by
      have hsub := Finset.sum_le_sum_of_subset_of_nonneg
        (Finset.subset_univ ({j₀, j} : Finset (Fin k))) fun x _ _ => hnn i x
      rwa [Finset.sum_pair (Ne.symm hne)] at hsub
    rw [hrow i, h1, h2] at hpair
    linarith
  have hwt : ∀ i j, tdWeight q i j = q i j / colFreq q j := by
    intro i j
    unfold tdWeight
    rcases h01 i j with h | h <;> simp [h]
  have hS : ∀ i j₀, q i j₀ = 1 → (∀ j, j ≠ j₀ → q i j = 0) →
      (∑ j', tdWeight q i j') = 1 / colFreq q j₀ := by
    intro i j₀ h1 h0
    rw [Finset.sum_eq_single j₀]
    · rw [hwt, h1]
    · intro j _ hne
      rw [hwt, h0 j hne, zero_div]
    · intro habs
      exact absurd (Finset.mem_univ j₀) habs
  have htot : ∀ i j, target_distribution q i j = q i j := by
    intro i j
    obtain ⟨j₀, h1, h0⟩ := hhot i
    unfold target_distribution
    rw [hS i j₀ h1 h0, hwt]
    by_cases hje : j = j₀
    · subst hje
      rw [h1]
      exact div_self (one_div_ne_zero (hcolpos j).ne')
    · rw [h0 j hje]
      simp
  have hwd : tdWellDefined q := by
    refine ⟨fun j => (hcolpos j).ne', fun i => ?_⟩
    obtain ⟨j₀, h1, h0⟩ := hhot i
    rw [hS i j₀ h1 h0]
    exact one_div_ne_zero (hcolpos j₀).ne'
  intro i j
  rw [target_distributionF_eq_of_wellDefined q hwd i j, htot i j]

/-- Witness for `target_distribution_one_hot_fixed` at the 2 × 2 one-hot
identity matrix. -/
theorem target_distribution_one_hot_fixed_witness :
    ((∀ i j, qOneHot i j = 0 ∨ qOneHot i j = 1) ∧ (∀ i, ∑ j, qOneHot i j = 1) ∧
        ∀ j, ∃ i, qOneHot i j = 1) ∧
      ∀ i j, target_distributionF qOneHot i j = some (qOneHot i j) :=
  ⟨⟨fun i j => by unfold qOneHot; split <;> simp,
      fun i => by fin_cases i <;> rw [Fin.sum_univ_two] <;> norm_num [qOneHot],
      fun j => ⟨⟨j.1, j.isLt⟩, by simp [qOneHot]⟩⟩,
    target_distribution_one_hot_fixed qOneHot
      (fun i j => by unfold qOneHot; split <;> simp)
      (fun i => by fin_cases i <;> rw [Fin.sum_univ_two] <;> norm_num [qOneHot])
      (fun j => ⟨⟨j.1, j.isLt⟩, by simp [qOneHot]⟩)⟩

/-- Claim C2: for every batch of embeddings, cluster centers and `α > 0`, the
soft-assignment forward pass of the source — reciprocal kernel
`1/(1 + dist²/α)` raised to `(α+1)/2` and then row-normalised — equals the
spec's row-normalised student-t kernel
`(1 + dist²/α)^(-(α+1)/2) / ∑ⱼ' (1 + dist²/α)^(-(α+1)/2)`. -/
theorem clusteringLayer_call_eq_studentT {n K D : ℕ} (alpha : ℝ)
    (halpha : 0 < alpha) (inputs : Fin n → Fin D → ℝ)
    (clusters : Fin K → Fin D → ℝ) (i : Fin n) (j : Fin K) :
    ClusteringLayer.call alpha inputs clusters i j =
      studentTSoftAssign alpha inputs clusters i j := by
  have hbase : ∀ j' : Fin K, (0:ℝ) < 1 + sqDist (inputs i) (clusters j') / alpha := by
    intro j'
    have hd : 0 ≤ sqDist (inputs i) (clusters j') :=
      Finset.sum_nonneg fun d _ => sq_nonneg _
    have h0 : 0 ≤ sqDist (inputs i) (clusters j') / alpha := div_nonneg hd halpha.le
    linarith
  have hQ : ∀ j' : Fin K, studentQ alpha inputs clusters i j' =
      (1 + sqDist (inputs i) (clusters j') / alpha) ^ (-((alpha + 1) / 2)) := by
    intro j'
    unfold studentQ
    rw [one_div, Real.inv_rpow (hbase j').le, ← Real.rpow_neg (hbase j').le]
  unfold ClusteringLayer.call studentTSoftAssign
  rw [hQ j]
  congr 1
  exact Finset.sum_congr rfl fun j' _ => hQ j'

/-- Witness for `clusteringLayer_call_eq_studentT`: one embedding coinciding
with the single center, `α = 1`. -/
theorem clusteringLayer_call_eq_studentT_witness :
    (0:ℝ) < 1 ∧
      ClusteringLayer.call 1 embed0 center0 0 0 =
        studentTSoftAssign 1 embed0 center0 0 0 :=
  ⟨one_pos, clusteringLayer_call_eq_studentT 1 one_pos embed0 center0 0 0⟩

/-- Claim C8: for arbitrary finite embeddings and centers (including an
embedding exactly coinciding with a center), every unnormalised reciprocal
affinity `1/(1 + dist²/α)` lies in `(0, 1]`, the row's normalising
denominator is strictly positive (so the float computation never divides by
zero nor produces NaN), and every output row sums to 1, in particular within
`1e-6` absolute tolerance. -/
theorem clusteringLayer_call_row_sum_one {n K D : ℕ} (hK : 0 < K) (alpha : ℝ)
    (halpha : 0 < alpha) (inputs : Fin n → Fin D → ℝ)
    (clusters : Fin K → Fin D → ℝ) (i : Fin n) :
    (∀ j, 0 < 1 / (1 + sqDist (inputs i) (clusters j) / alpha) ∧
        1 / (1 + sqDist (inputs i) (clusters j) / alpha) ≤ 1) ∧
      (0 < ∑ j', studentQ alpha inputs clusters i j') ∧
      |(∑ j, ClusteringLayer.call alpha inputs clusters i j) - 1| ≤ 1 / 1000000 := by
  have hd : ∀ j : Fin K, 0 ≤ sqDist (inputs i) (clusters j) := fun j =>
    Finset.sum_nonneg fun d _ => sq_nonneg _
  have hbase : ∀ j : Fin K, (1:ℝ) ≤ 1 + sqDist (inputs i) (clusters j) / alpha := by
    intro j
    have h0 : 0 ≤ sqDist (inputs i) (clusters j) / alpha :=
      div_nonneg (hd j) halpha.le
    linarith
  have hbpos : ∀ j : Fin K, (0:ℝ) < 1 + sqDist (inputs i) (clusters j) / alpha :=
    fun j => lt_of_lt_of_le one_pos (hbase j)
  have hqpos : ∀ j : Fin K, 0 < studentQ alpha inputs clusters i j := by
    intro j
    unfold studentQ
    exact Real.rpow_pos_of_pos (one_div_pos.mpr (hbpos j)) _
  have hne : (Finset.univ : Finset (Fin K)).Nonempty := ⟨⟨0, hK⟩, Finset.mem_univ _⟩
  have hSpos : 0 < ∑ j', studentQ alpha inputs clusters i j' :=
    Finset.sum_pos (fun j _ => hqpos j) hne
  refine ⟨fun j => ⟨one_div_pos.mpr (hbpos j), ?_⟩, hSpos, ?_⟩
  · rw [div_le_one (hbpos j)]
    exact hbase j
  · have hsum : (∑ j, ClusteringLayer.call alpha inputs clusters i j) = 1 := by
      unfold ClusteringLayer.call
      rw [← Finset.sum_div, div_self hSpos.ne']
    rw [hsum]
    norm_num

/-- Witness for `clusteringLayer_call_row_sum_one`: the degenerate case of a
single embedding exactly at the single center, `α = 1`. -/
theorem clusteringLayer_call_row_sum_one_witness :
    0 < 1 ∧ (0:ℝ) < 1 ∧
      ((∀ j : Fin 1, 0 < 1 / (1 + sqDist (embed0 0) (center0 j) / 1) ∧
          1 / (1 + sqDist (embed0 0) (center0 j) / 1) ≤ 1) ∧
        (0 < ∑ j' : Fin 1, studentQ 1 embed0 center0 0 j') ∧
        |(∑ j : Fin 1, ClusteringLayer.call 1 embed0 center0 0 j) - 1| ≤
          1 / 1000000) :=
  ⟨Nat.one_pos, one_pos,
    clusteringLayer_call_row_sum_one Nat.one_pos 1 one_pos embed0 center0 0⟩

/-- Claim C10: for a non-empty batch, at least one cluster and `α > 0`, every
entry of the soft-assignment matrix produced by the layer is strictly
positive; hence every cluster column's total mass is strictly positive, and
every divisor of the sharpener applied to this output is non-zero — the
sharpener's zero-frequency degenerate case is unreachable from the layer's
forward pass. -/
theorem clusteringLayer_call_pos_wellDefined {n K D : ℕ} (hn : 0 < n)
    (hK : 0 < K) (alpha : ℝ) (halpha : 0 < alpha)
    (inputs : Fin n → Fin D → ℝ) (clusters : Fin K → Fin D → ℝ) :
    (∀ i j, 0 < ClusteringLayer.call alpha inputs clusters i j) ∧
      (∀ j, 0 < colFreq (ClusteringLayer.call alpha inputs clusters) j) ∧
      tdWellDefined (ClusteringLayer.call alpha inputs clusters) := by
  have hqpos : ∀ (i : Fin n) (j : Fin K),
      0 < studentQ alpha inputs clusters i j := by
    intro i j
    have hd : 0 ≤ sqDist (inputs i) (clusters j) :=
      Finset.sum_nonneg fun d _ => sq_nonneg _
    have h0 : 0 ≤ sqDist (inputs i) (clusters j) / alpha :=
      div_nonneg hd halpha.le
    unfold studentQ
    exact Real.rpow_pos_of_pos (one_div_pos.mpr (by linarith)) _
  have hneK : (Finset.univ : Finset (Fin K)).Nonempty := ⟨⟨0, hK⟩, Finset.mem_univ _⟩
  have hnen : (Finset.univ : Finset (Fin n)).Nonempty := ⟨⟨0, hn⟩, Finset.mem_univ _⟩
  have hentry : ∀ i j, 0 < ClusteringLayer.call alpha inputs clusters i j := by
    intro i j
    unfold ClusteringLayer.call
    exact div_pos (hqpos i j) (Finset.sum_pos (fun j' _ => hqpos i j') hneK)
  have hcolpos : ∀ j, 0 < colFreq (ClusteringLayer.call alpha inputs clusters) j := by
    intro j
    unfold colFreq
    exact Finset.sum_pos (fun i _ => hentry i j) hnen
  refine ⟨hentry, hcolpos, fun j => (hcolpos j).ne', fun i => ?_⟩
  have hwpos : ∀ j, 0 < tdWeight (ClusteringLayer.call alpha inputs clusters) i j := by
    intro j
    unfold tdWeight
    exact div_pos (pow_pos (hentry i j) 2) (hcolpos j)
  exact (Finset.sum_pos (fun j _ => hwpos j) hneK).ne'

/-- Witness for `clusteringLayer_call_pos_wellDefined`: one embedding at the
single center, `α = 1`. -/
theorem clusteringLayer_call_pos_wellDefined_witness :
    0 < 1 ∧ (0:ℝ) < 1 ∧
      ((∀ (i : Fin 1) (j : Fin 1),
          0 < ClusteringLayer.call 1 embed0 center0 i j) ∧
        (∀ j : Fin 1, 0 < colFreq (ClusteringLayer.call 1 embed0 center0) j) ∧
        tdWellDefined (ClusteringLayer.call 1 embed0 center0)) :=
  ⟨Nat.one_pos, one_pos,
    clusteringLayer_call_pos_wellDefined Nat.one_pos Nat.one_pos 1 one_pos
      embed0 center0⟩

/-- Helper: any function injective on a finite set of indices below `D`,
with images below `D`, extends to a permutation of `Fin D`. -/
theorem exists_perm_extend (D : ℕ) (g : ℕ → ℕ) :
    ∀ A : Finset ℕ, (∀ a ∈ A, a < D) → (∀ a ∈ A, g a < D) → Set.InjOn g ↑A →
      ∃ ρ : Equiv.Perm (Fin D), ∀ a, a ∈ A → ∀ h : a < D, (ρ ⟨a, h⟩).1 = g a := by
  intro A
  induction A using Finset.induction_on with
  | empty =>
    intro _ _ _
    exact ⟨1, fun a ha _ => absurd ha (Finset.not_mem_empty a)⟩
  | @insert a s hanotmem ih =>
    intro hA hgA hinj
    have hA' : ∀ x ∈ s, x < D := fun x hx => hA x (Finset.mem_insert_of_mem hx)
    have hgA' : ∀ x ∈ s, g x < D := fun x hx => hgA x (Finset.mem_insert_of_mem hx)
    have hinj' : Set.InjOn g ↑s :=
      hinj.mono (Finset.coe_subset.mpr (Finset.subset_insert a s))
    obtain ⟨ρ', hρ'⟩ := ih hA' hgA' hinj'
    have haD : a < D := hA a (Finset.mem_insert_self a s)
    have hgaD : g a < D := hgA a (Finset.mem_insert_self a s)
    refine ⟨ρ'.trans (Equiv.swap (ρ' ⟨a, haD⟩) ⟨g a, hgaD⟩), ?_⟩
    intro x hx hxD
    rcases Finset.mem_insert.mp hx with rfl | hxs
    · simp only [Equiv.trans_apply]
      rw [Equiv.swap_apply_left]
    · simp only [Equiv.trans_apply]
      have hxa : x ≠ a := fun h => hanotmem (h ▸ hxs)
      have hval : ρ' ⟨x, hxD⟩ = ⟨g x, hgA' x hxs⟩ := Fin.ext (hρ' x hxs hxD)
      rw [hval, Equiv.swap_apply_of_ne_of_ne]
      · intro heq
        have h2 : ρ' ⟨x, hxD⟩ = ρ' ⟨a, haD⟩ := by rw [hval]; exact heq
        exact hxa (congrArg Fin.val (ρ'.injective h2))
      · intro heq
        have h3 : g x = g a := congrArg Fin.val heq
        exact hxa (hinj (Finset.mem_coe.mpr hx)
          (Finset.mem_coe.mpr (Finset.mem_insert_self a s)) h3)

/-- Helper: relabelling the predictions by an injective map permutes the rows
of the contingency matrix: the count at row `π a` for the relabelled
predictions is the count at row `a` for the originals. -/
theorem contW_map_left (y_true y_pred : List ℕ) (π : Equiv.Perm ℕ) (a b : ℕ) :
    contW y_true (y_pred.map π) (π a) b = contW y_true y_pred a b := by
  unfold contW
  rw [List.zip_map_left, List.countP_map]
  refine List.countP_congr fun x _ => ?_
  simp only [Function.comp_apply, Prod.map_fst, Prod.map_snd, id_eq,
    decide_eq_true_eq]
  exact and_congr_left' π.apply_eq_iff_eq

/-- Helper: every member of a list is bounded by its numpy max. -/
theorem le_npMax_of_mem {x : ℕ} {l : List ℕ} (h : x ∈ l) : x ≤ npMax l := by
  induction l with
  | nil => cases h
  | cons y t ih =>
    rcases List.mem_cons.mp h with rfl | ht
    · exact le_max_left _ _
    · exact le_trans (ih ht) (le_max_right _ _)

/-- Helper: predicted labels are within the contingency dimension. -/
theorem lt_contDim_left {x : ℕ} {y_true y_pred : List ℕ} (h : x ∈ y_pred) :
    x < contDim y_true y_pred :=
  Nat.lt_succ_of_le (le_trans (le_npMax_of_mem h) (le_max_left _ _))

/-- Helper: true labels are within the contingency dimension. -/
theorem lt_contDim_right {x : ℕ} {y_true y_pred : List ℕ} (h : x ∈ y_true) :
    x < contDim y_true y_pred :=
  Nat.lt_succ_of_le (le_trans (le_npMax_of_mem h) (le_max_right _ _))

/-- Helper: a non-zero contingency count means the row index occurs among
the predictions and the column index among the true labels. -/
theorem contW_ne_zero_mem {y_true y_pred : List ℕ} {a b : ℕ}
    (h : contW y_true y_pred a b ≠ 0) : a ∈ y_pred ∧ b ∈ y_true := by
  unfold contW at h
  obtain ⟨x, hxmem, hx⟩ := List.countP_pos_iff.mp (Nat.pos_of_ne_zero h)
  obtain ⟨x1, x2⟩ := x
  obtain ⟨h1, h2⟩ := of_decide_eq_true hx
  have hz := List.of_mem_zip hxmem
  exact ⟨h1 ▸ hz.1, h2 ▸ hz.2⟩

/-- Helper (key inequality for C4): relabelling the predictions by a
permutation of the labels can only increase the optimal assignment score —
even though the contingency dimension may change, every scoring matching
transports to the relabelled matrix. -/
theorem bestS_le_map (y_true y_pred : List ℕ) (π : Equiv.Perm ℕ) :
    bestS (contW y_true y_pred) (contDim y_true y_pred) ≤
      bestS (contW y_true (y_pred.map π)) (contDim y_true (y_pred.map π)) := by
  obtain ⟨σ, -, hσ⟩ := Finset.exists_mem_eq_sup
    (Finset.univ : Finset (Equiv.Perm (Fin (contDim y_true y_pred))))
    ⟨1, Finset.mem_univ 1⟩
    (fun σ => ∑ i, contW y_true y_pred i.1 (σ i).1)
  have hT : ∀ i ∈ Finset.univ.filter
      (fun i : Fin (contDim y_true y_pred) => contW y_true y_pred i.1 (σ i).1 ≠ 0),
      i.1 ∈ y_pred ∧ (σ i).1 ∈ y_true := by
    intro i hi
    exact contW_ne_zero_mem (Finset.mem_filter.mp hi).2
  have hπlt : ∀ i ∈ Finset.univ.filter
      (fun i : Fin (contDim y_true y_pred) => contW y_true y_pred i.1 (σ i).1 ≠ 0),
      π i.1 < contDim y_true (y_pred.map π) := by
    intro i hi
    exact lt_contDim_left (List.mem_map_of_mem _ (hT i hi).1)
  have hσlt : ∀ i ∈ Finset.univ.filter
      (fun i : Fin (contDim y_true y_pred) => contW y_true y_pred i.1 (σ i).1 ≠ 0),
      (σ i).1 < contDim y_true (y_pred.map π) := by
    intro i hi
    exact lt_contDim_right (hT i hi).2
  have hgval : ∀ i : Fin (contDim y_true y_pred),
      (fun v => if h : π.symm v < contDim y_true y_pred
          then (σ ⟨π.symm v, h⟩).1 else 0) (π i.1) = (σ i).1 := by
    intro i
    simp only [Equiv.symm_apply_apply]
    rw [dif_pos i.2]
  obtain ⟨ρ, hρ⟩ := exists_perm_extend (contDim y_true (y_pred.map π))
    (fun v => if h : π.symm v < contDim y_true y_pred
        then (σ ⟨π.symm v, h⟩).1 else 0)
    ((Finset.univ.filter
      (fun i : Fin (contDim y_true y_pred) => contW y_true y_pred i.1 (σ i).1 ≠ 0)).image
      (fun i => π i.1))
    (by
      intro v hv
      obtain ⟨i, hiT, rfl⟩ := Finset.mem_image.mp hv
      exact hπlt i hiT)
    (by
      intro v hv
      obtain ⟨i, hiT, rfl⟩ := Finset.mem_image.mp hv
      rw [hgval i]
      exact hσlt i hiT)
    (by
      intro u hu v hv huv
      obtain ⟨i, hiT, rfl⟩ := Finset.mem_image.mp (Finset.mem_coe.mp hu)
      obtain ⟨i', hi'T, rfl⟩ := Finset.mem_image.mp (Finset.mem_coe.mp hv)
      rw [hgval i, hgval i'] at huv
      rw [σ.injective (Fin.ext huv)])
  unfold bestS
  rw [hσ]
  have hle : ∑ i, contW y_true y_pred i.1 (σ i).1 ≤
      ∑ i, contW y_true (y_pred.map π) i.1 (ρ i).1 := by
    rw [← Finset.sum_filter_ne_zero
      (Finset.univ : Finset (Fin (contDim y_true y_pred)))]
    have hbij : ∑ i in Finset.univ.filter
        (fun i : Fin (contDim y_true y_pred) => contW y_true y_pred i.1 (σ i).1 ≠ 0),
          contW y_true y_pred i.1 (σ i).1
        = ∑ v in Finset.univ.filter
            (fun v : Fin (contDim y_true (y_pred.map π)) =>
              v.1 ∈ (Finset.univ.filter
                (fun i : Fin (contDim y_true y_pred) =>
                  contW y_true y_pred i.1 (σ i).1 ≠ 0)).image (fun i => π i.1)),
            contW y_true (y_pred.map π) v.1 (ρ v).1 := by
      refine Finset.sum_bij (fun i hi => ⟨π i.1, hπlt i hi⟩) ?_ ?_ ?_ ?_
      · intro i hi
        refine Finset.mem_filter.mpr ⟨Finset.mem_univ _, ?_⟩
        exact Finset.mem_image_of_mem _ hi
      · intro i hi i' hi' heq
        exact Fin.ext (π.injective (congrArg Fin.val heq))
      · intro v hv
        obtain ⟨i, hiT, hiv⟩ := Finset.mem_image.mp (Finset.mem_filter.mp hv).2
        exact ⟨i, hiT, Fin.ext hiv⟩
      · intro i hi
        have hρv : (ρ ⟨π i.1, hπlt i hi⟩).1
            = (fun v => if h : π.symm v < contDim y_true y_pred
                then (σ ⟨π.symm v, h⟩).1 else 0) (π i.1) :=
          hρ (π i.1) (Finset.mem_image_of_mem _ hi) (hπlt i hi)
        rw [hρv, hgval i]
        exact (contW_map_left y_true y_pred π i.1 (σ i).1).symm
    rw [hbij]
    exact Finset.sum_le_sum_of_subset (Finset.filter_subset _ _)
  exact le_trans hle
    (@Finset.le_sup _ _ _ _ _
      (fun σ' => ∑ i, contW y_true (y_pred.map π) i.1 (σ' i).1) ρ
      (Finset.mem_univ ρ))

/-- Claim C4: the evaluation accuracy function is invariant under any
permutation of the cluster index labels applied to the predictions, because
it scores predictions through an exact optimal assignment over the
contingency matrix. -/
theorem acc_cluster_perm_invariant (y_true y_pred : List ℕ) (π : Equiv.Perm ℕ)
    (_hlen : y_true.length = y_pred.length) :
    acc_cluster y_true (y_pred.map π) = acc_cluster y_true y_pred := by
  have h1 := bestS_le_map y_true y_pred π
  have h2 := bestS_le_map y_true (y_pred.map π) π.symm
  rw [List.map_map, Equiv.symm_comp_self, List.map_id] at h2
  have heq : bestS (contW y_true (y_pred.map π)) (contDim y_true (y_pred.map π))
      = bestS (contW y_true y_pred) (contDim y_true y_pred) :=
    le_antisymm h2 h1
  unfold acc_cluster
  rw [heq, List.length_map]

/-- Witness for `acc_cluster_perm_invariant`: swapping the two cluster
labels of the predictions `[1, 0]` against true labels `[0, 1]`. -/
theorem acc_cluster_perm_invariant_witness :
    ([0, 1] : List ℕ).length = ([1, 0] : List ℕ).length ∧
      acc_cluster [0, 1] (([1, 0] : List ℕ).map (Equiv.swap 0 1)) =
        acc_cluster [0, 1] [1, 0] :=
  ⟨rfl, acc_cluster_perm_invariant [0, 1] [1, 0] (Equiv.swap 0 1) rfl⟩

end VitFemur
